import Mathlib

/-!
Shallow embedding of the BB84 QKD core of the ncrypt repository
(src/ncrypt/core/qkd.py and src/ncrypt/simulator/quantum_simulator.py).

Python floats are modelled as rationals (every IEEE float is a rational and
all the arithmetic relevant here is exact); the simulator's state vectors,
whose amplitudes involve 1/sqrt 2, are modelled over the reals.  The global
numpy random generator is modelled as an explicit stream of uniform draws in
[0,1): each loop iteration of `measure_qubits` consumes exactly one draw,
`np.random.random()` is the draw itself and `np.random.randint(0, 2)` is the
bit derived from the draw by `randint01`.  The random index subset drawn by
`np.random.choice(key_length, sample_size, replace=False)` inside
`estimate_error_rate` is passed in explicitly as `check_indices`.
Python exceptions (`ValueError`, `ZeroDivisionError`) are modelled with
`Except`; `Optional[QKDResult]` is `Option QKDResult`.
-/

namespace NCrypt

/-- The Python exceptions that the embedded code can raise. -/
inductive PyError
  | valueError
  | zeroDivisionError
  deriving DecidableEq

/-- qkd.py lines 14-31: result record of a QKD session.  `discarded_bits`
is an unbounded Python int, hence `ℤ`. -/
structure QKDResult where
  raw_key : List ℕ
  sifted_key : List ℕ
  final_key : List ℕ
  error_rate : ℚ
  key_length : ℕ
  discarded_bits : ℤ
  deriving DecidableEq

/-- qkd.py line 52: the rectilinear basis tag. -/
def RECTILINEAR : ℕ := 0

/-- qkd.py line 53: the diagonal basis tag. -/
def DIAGONAL : ℕ := 1

/-- qkd.py lines 74-87, `BB84Protocol.prepare_qubits`: pair each bit with
its basis. -/
def prepare_qubits (bits bases : List ℕ) : List (ℕ × ℕ) :=
  List.zip bits bases

/-- `np.random.randint(0, 2)` driven by the underlying uniform draw
u ∈ [0,1): result 0 on the lower half of the interval, 1 on the upper. -/
def randint01 (u : ℚ) : ℕ :=
  if u < 1/2 then 0 else 1

/-- Loop body of qkd.py lines 106-119: `k` counts how many random draws
have been consumed so far. -/
def measureQubitsAux (noise_level : ℚ) (stream : ℕ → ℚ) :
    List ((ℕ × ℕ) × ℕ) → ℕ → List ℕ
  | [], _ => []
  | ((alice_bit, alice_basis), bob_basis) :: rest, k =>
    (if alice_basis = bob_basis then
      if stream k < noise_level then 1 - alice_bit else alice_bit
     else
      randint01 (stream k)) :: measureQubitsAux noise_level stream rest (k + 1)

/-- qkd.py lines 89-121, `BB84Protocol.measure_qubits`. -/
def measure_qubits (qubits : List (ℕ × ℕ)) (bases : List ℕ)
    (noise_level : ℚ) (stream : ℕ → ℚ) : List ℕ :=
  measureQubitsAux noise_level stream (List.zip qubits bases) 0

/-- qkd.py lines 123-141, `BB84Protocol.sift_keys`: boolean-mask selection
`bits[alice_bases == bob_bases]` of numpy is selection by the pointwise
equality mask. -/
def sift_keys (alice_bits alice_bases bob_bits bob_bases : List ℕ) :
    List ℕ × List ℕ :=
  let matching := List.zipWith (fun a b => decide (a = b)) alice_bases bob_bases
  ((List.zip alice_bits matching).filterMap
      (fun p => if p.2 then some p.1 else none),
   (List.zip bob_bits matching).filterMap
      (fun p => if p.2 then some p.1 else none))

/-- qkd.py line 172: `[i for i in range(key_length) if i not in check_indices]`. -/
def keep_indices (key_length : ℕ) (check_indices : List ℕ) : List ℕ :=
  (List.range key_length).filter (fun i => decide (i ∉ check_indices))

/-- qkd.py lines 143-183, `BB84Protocol.estimate_error_rate`.  The random
subset produced by `np.random.choice` is the parameter `check_indices`;
`sample_size = None` selects the default `key_length // 2`.  The division
`errors / sample_size` raises `ZeroDivisionError` when `sample_size == 0`. -/
def estimate_error_rate (alice_key bob_key : List ℕ) (sample_size : Option ℕ)
    (check_indices : List ℕ) : Except PyError (ℚ × List ℕ × List ℕ) :=
  let key_length := alice_key.length
  let ss := sample_size.getD (key_length / 2)
  if key_length ≤ ss then .error .valueError
  else
    let keep := keep_indices key_length check_indices
    let errors := check_indices.countP
      (fun i => decide (¬ alice_key.getD i 0 = bob_key.getD i 0))
    if ss = 0 then .error .zeroDivisionError
    else
      .ok ((errors : ℚ) / (ss : ℚ),
           keep.map (fun i => alice_key.getD i 0),
           keep.map (fun i => bob_key.getD i 0))

/-- qkd.py lines 185-217, `BB84Protocol.privacy_amplification`.  Python's
`int()` truncates toward zero; on the nonnegative products arising from a
nonnegative compression factor this is the floor, and a negative product
yields an empty result either way, matching `Int.toNat ∘ Int.floor`. -/
def privacy_amplification (key : List ℕ) (compression_factor : ℚ) : List ℕ :=
  let new_length := (⌊(key.length : ℚ) * compression_factor⌋).toNat
  if new_length = 0 then []
  else
    let step := key.length / new_length
    (List.range new_length).map (fun i =>
      let start_idx := i * step
      let end_idx := min (start_idx + step) key.length
      (List.range' start_idx (end_idx - start_idx)).foldl
        (fun acc j => acc ^^^ key.getD j 0) 0)

/-- Modelled from the spec (§4.6 PrivacyAmplifier), for comparison with
`privacy_amplification`: the same segment scheme but with the final
segment absorbing any remainder up to `len(key)`, exactly as the spec's
words describe the partition. -/
def amplify_spec_absorbing (key : List ℕ) (compression_factor : ℚ) : List ℕ :=
  let new_length := (⌊(key.length : ℚ) * compression_factor⌋).toNat
  if new_length = 0 then []
  else
    let step := key.length / new_length
    (List.range new_length).map (fun i =>
      let start_idx := i * step
      let end_idx := if i = new_length - 1 then key.length else start_idx + step
      (List.range' start_idx (end_idx - start_idx)).foldl
        (fun acc j => acc ^^^ key.getD j 0) 0)

/-- qkd.py lines 219-285, `BB84Protocol.run_protocol`.  The protocol's
randomness — Alice's bits and bases, Bob's bases, the per-qubit draw stream
and the index sample of the error estimation — is passed in explicitly.
`error_threshold` is the attribute set in `__init__` (default 0.11). -/
def run_protocol (error_threshold : ℚ) (n_bits : ℕ) (noise_level : ℚ)
    ( check_sample_ratio : ℚ) (alice_bits alice_bases bob_bases : List ℕ)
    (stream : ℕ → ℚ) (check_indices : List ℕ) :
    Except PyError (Option QKDResult) :=
  let qubits := prepare_qubits alice_bits alice_bases
  let bob_bits := measure_qubits qubits bob_bases noise_level stream
  let sifted := sift_keys alice_bits alice_bases bob_bits bob_bases
  if sifted.1.length = 0 then .ok none
  else
    let sample_size := (⌊(sifted.1.length : ℚ) * check_sample_ratio⌋).toNat
    match estimate_error_rate sifted.1 sifted.2 (some sample_size) check_indices with
    | .error e => .error e
    | .ok (error_rate, alice_final, _bob_final) =>
      if error_threshold < error_rate then .ok none
      else
        let final_key := privacy_amplification alice_final (7/10)
        .ok (some
          { raw_key := alice_bits
            sifted_key := sifted.1
            final_key := final_key
            error_rate := error_rate
            key_length := final_key.length
            discarded_bits := (n_bits : ℤ) - (final_key.length : ℤ) })

/-!
Embedding of the state-vector simulator (quantum_simulator.py).  The states
produced by `create_qubit_state` are complex vectors whose entries are all
real, so they are modelled as pairs of reals; the 2×2 measurement operators
likewise have real entries and are modelled as pairs of rows.  The claims
exercise the simulator with `noise_model = None` and `noise_level = 0`, so
`apply_noise` embeds the `None` branch of lines 108-109 (return the state
unchanged); the depolarizing and amplitude-damping branches are dead code
for every property below because `measure_qubit` only calls `apply_noise`
when `noise_level > 0`. -/

/-- A 2×2 real matrix as ((row0), (row1)). -/
abbrev Mat2 := (ℝ × ℝ) × (ℝ × ℝ)

/-- quantum_simulator.py lines 33-57, `QuantumSimulator.create_qubit_state`. -/
noncomputable def create_qubit_state (bit basis : ℕ) : ℝ × ℝ :=
  if basis = 0 then
    if bit = 0 then (1, 0) else (0, 1)
  else
    if bit = 0 then (1 / Real.sqrt 2, 1 / Real.sqrt 2)
    else (1 / Real.sqrt 2, -(1 / Real.sqrt 2))

/-- quantum_simulator.py lines 59-80, `QuantumSimulator.get_measurement_operator`. -/
noncomputable def get_measurement_operator (basis : ℕ) : Mat2 × Mat2 :=
  if basis = 0 then
    (((1, 0), (0, 0)), ((0, 0), (0, 1)))
  else
    (((1/2, 1/2), (1/2, 1/2)), ((1/2, -(1/2)), (-(1/2), 1/2)))

/-- `M @ state` for a 2×2 matrix and a 2-vector. -/
def matVec (M : Mat2) (v : ℝ × ℝ) : ℝ × ℝ :=
  (M.1.1 * v.1 + M.1.2 * v.2, M.2.1 * v.1 + M.2.2 * v.2)

/-- `np.vdot` on vectors with real entries (conjugation is the identity). -/
def vdot (a b : ℝ × ℝ) : ℝ :=
  a.1 * b.1 + a.2 * b.2

/-- quantum_simulator.py lines 108-109, `QuantumSimulator.apply_noise` for
`noise_model = None`: the state is returned unchanged. -/
def apply_noise (state : ℝ × ℝ) ( noise_level : ℝ) : ℝ × ℝ :=
  state

/-- quantum_simulator.py lines 111-146, `QuantumSimulator.measure_qubit`.
`np.random.choice([0, 1], p=[prob_0, prob_1])` driven by the underlying
uniform draw u ∈ [0,1) returns 0 exactly when u < prob_0. -/
noncomputable def measure_qubit (state : ℝ × ℝ) (basis : ℕ)
    ( noise_level : ℝ) (u : ℝ) : ℕ :=
  let state := if 0 < noise_level then apply_noise state noise_level else state
  let Ms := get_measurement_operator basis
  let prob_0 := |vdot state (matVec Ms.1 state)|
  let prob_1 := |vdot state (matVec Ms.2 state)|
  let total := prob_0 + prob_1
  if u < prob_0 / total then 0 else 1

/-! ### Helper lemmas -/

lemma estimate_zero_sample (alice_key bob_key check_indices : List ℕ)
    (h : alice_key ≠ []) :
    estimate_error_rate alice_key bob_key (some 0) check_indices =
      .error .zeroDivisionError := by
  have hlen : 0 < alice_key.length := List.length_pos.mpr h
  unfold estimate_error_rate
  simp [Option.getD_some, Nat.not_le.mpr hlen]

lemma run_protocol_empty_sift (error_threshold : ℚ) (n_bits : ℕ)
    (noise_level ratio : ℚ) (alice_bits alice_bases bob_bases : List ℕ)
    (stream : ℕ → ℚ) (check_indices : List ℕ)
    (h : (sift_keys alice_bits alice_bases
        (measure_qubits (prepare_qubits alice_bits alice_bases) bob_bases
          noise_level stream) bob_bases).1.length = 0) :
    run_protocol error_threshold n_bits noise_level ratio alice_bits
      alice_bases bob_bases stream check_indices = .ok none := by
  simp only [run_protocol]
  rw [if_pos h]

lemma run_protocol_gate (error_threshold : ℚ) (n_bits : ℕ)
    (noise_level ratio : ℚ) (alice_bits alice_bases bob_bases : List ℕ)
    (stream : ℕ → ℚ) (check_indices : List ℕ)
    (sifted : List ℕ × List ℕ)
    (hsift : sift_keys alice_bits alice_bases
        (measure_qubits (prepare_qubits alice_bits alice_bases) bob_bases
          noise_level stream) bob_bases = sifted)
    (hne : sifted.1.length ≠ 0)
    (e : ℚ) (af bf : List ℕ)
    (hest : estimate_error_rate sifted.1 sifted.2
        (some ((⌊(sifted.1.length : ℚ) * ratio⌋).toNat)) check_indices =
        .ok (e, af, bf)) :
    run_protocol error_threshold n_bits noise_level ratio alice_bits
      alice_bases bob_bases stream check_indices =
      if error_threshold < e then .ok none
      else .ok (some
        { raw_key := alice_bits
          sifted_key := sifted.1
          final_key := privacy_amplification af (7/10)
          error_rate := e
          key_length := (privacy_amplification af (7/10)).length
          discarded_bits :=
            (n_bits : ℤ) - ((privacy_amplification af (7/10)).length : ℤ) }) := by
  simp only [run_protocol, hsift]
  rw [if_neg hne, hest]

/-! ### Claim C9 -/

/-- Claim C9: `estimate_error_rate` fails with the invalid-sample-size
error (the `ValueError` of qkd.py line 168) exactly when
`sample_size ≥ len(alice_key)`; when `sample_size < len(alice_key)` this
error branch is unreachable. -/
theorem invalid_sample_size_iff (alice_key bob_key : List ℕ) (s : ℕ)
    (check_indices : List ℕ) :
    estimate_error_rate alice_key bob_key (some s) check_indices =
      .error .valueError ↔ alice_key.length ≤ s := by
  unfold estimate_error_rate
  simp only [Option.getD_some]
  split_ifs with h1 h2 <;> simp_all

/-! ### Claim C10 -/

/-- Claim C10: with a nonempty sifted key, `sample_size = 0` satisfies the
stated precondition `sample_size < len(alice_key)` yet crashes at the
unguarded division `errors / sample_size` (ZeroDivisionError); this is
reachable from `run_protocol` whenever `int(len(sifted) *
check_sample_ratio)` truncates to 0, so such a run raises instead of
returning a result or an abort value. -/
theorem sample_size_zero_crash :
    (∀ (alice_key bob_key check_indices : List ℕ), alice_key ≠ [] →
      estimate_error_rate alice_key bob_key (some 0) check_indices =
        .error .zeroDivisionError) ∧
    (∀ (error_threshold : ℚ) (n_bits : ℕ) (noise_level ratio : ℚ)
        (alice_bits alice_bases bob_bases : List ℕ)
        (stream : ℕ → ℚ) (check_indices : List ℕ),
      (sift_keys alice_bits alice_bases
          (measure_qubits (prepare_qubits alice_bits alice_bases) bob_bases
            noise_level stream) bob_bases).1.length ≠ 0 →
      (⌊((sift_keys alice_bits alice_bases
          (measure_qubits (prepare_qubits alice_bits alice_bases) bob_bases
            noise_level stream) bob_bases).1.length : ℚ) * ratio⌋).toNat = 0 →
      run_protocol error_threshold n_bits noise_level ratio alice_bits
        alice_bases bob_bases stream check_indices =
        .error .zeroDivisionError) := by
  refine ⟨estimate_zero_sample, ?_⟩
  intro error_threshold n_bits noise_level ratio alice_bits alice_bases
    bob_bases stream check_indices hne hzero
  simp only [run_protocol]
  rw [if_neg hne, hzero,
    estimate_zero_sample _ _ check_indices (fun hnil => hne (by rw [hnil]; rfl))]

/-- Witness for C10: one qubit, matching bases, the default check ratio
1/2: the sifted key has length 1, the sample size truncates to 0 and the
run crashes. -/
theorem sample_size_zero_crash_witness :
    estimate_error_rate [0] [0] (some 0) [] = .error .zeroDivisionError ∧
    run_protocol (11/100) 1 0 (1/2) [0] [0] [0] (fun _ => 1/2) [] =
      .error .zeroDivisionError := by
  constructor
  · exact sample_size_zero_crash.1 [0] [0] [] (by decide)
  · refine sample_size_zero_crash.2 (11/100) 1 0 (1/2) [0] [0] [0]
      (fun _ => 1/2) [] ?_ ?_
    · norm_num [sift_keys, measure_qubits, measureQubitsAux, prepare_qubits,
        List.filterMap_cons]
    · norm_num [sift_keys, measure_qubits, measureQubitsAux, prepare_qubits,
        List.filterMap_cons]

/-! ### Claim C5 -/

lemma foldl_xor_range' (key : List ℕ) :
    ∀ (len start acc : ℕ), start + len ≤ key.length →
      (List.range' start len).foldl (fun a j => a ^^^ key.getD j 0) acc =
        ((key.drop start).take len).foldl (fun a b => a ^^^ b) acc := by
  intro len
  induction len with
  | zero => intro start acc h; simp
  | succ m ih =>
    intro start acc h
    have hs : start < key.length := by omega
    rw [List.range'_succ, List.foldl_cons, ih (start + 1) _ (by omega),
      List.drop_eq_getElem_cons hs, List.take_succ_cons, List.foldl_cons,
      List.getD_eq_getElem _ _ hs]

/-- Claim C5 (counterexample): on the key [0,0,0,0,1] with compression
factor 2/5 the code returns [0,0]; the final segment does not absorb the
remainder — flipping the trailing bit leaves the output unchanged — while
the absorbing partition the claim describes would give [0,1]. -/
theorem privacy_amplification_remainder_dropped :
    privacy_amplification [0, 0, 0, 0, 1] (2/5) = [0, 0] ∧
    privacy_amplification [0, 0, 0, 0, 1] (2/5) =
      privacy_amplification [0, 0, 0, 0, 0] (2/5) ∧
    amplify_spec_absorbing [0, 0, 0, 0, 1] (2/5) = [0, 1] ∧
    privacy_amplification [0, 0, 0, 0, 1] (2/5) ≠
      amplify_spec_absorbing [0, 0, 0, 0, 1] (2/5) := by
  refine ⟨?_, ?_, ?_, ?_⟩ <;>
    · norm_num [privacy_amplification, amplify_spec_absorbing, Int.toNat_ofNat]
      decide

/-- Claim C5 (amended): the output has exactly ⌊len(key)·f⌋ bits (empty
when that is 0, in particular on empty input); the key is cut into
new_length contiguous segments of exactly step = ⌊len(key)/new_length⌋
bits starting at i·step — the min(start+step, len) cap never truncates,
and the trailing len − new_length·step bits are dropped, not absorbed by
the final segment — and each output bit is the XOR of the bits of its
segment. -/
theorem privacy_amplification_amended (key : List ℕ) (f : ℚ) :
    (privacy_amplification key f).length = (⌊(key.length : ℚ) * f⌋).toNat ∧
    (key = [] → privacy_amplification key f = []) ∧
    (∀ i, i < (⌊(key.length : ℚ) * f⌋).toNat →
      (privacy_amplification key f).getD i 0 =
        ((key.drop (i * (key.length / (⌊(key.length : ℚ) * f⌋).toNat))).take
            (key.length / (⌊(key.length : ℚ) * f⌋).toNat)).foldl
          (fun a b => a ^^^ b) 0) := by
  refine ⟨?_, ?_, ?_⟩
  · simp only [privacy_amplification]
    split_ifs with h
    · simp [h]
    · simp
  · intro h
    subst h
    simp [privacy_amplification]
  · intro i hi
    have hn : (⌊(key.length : ℚ) * f⌋).toNat ≠ 0 := by omega
    simp only [privacy_amplification]
    rw [if_neg hn]
    have hlen : i < ((List.range ((⌊(key.length : ℚ) * f⌋).toNat)).map
        (fun i =>
          (List.range' (i * (key.length / (⌊(key.length : ℚ) * f⌋).toNat))
              (min (i * (key.length / (⌊(key.length : ℚ) * f⌋).toNat) +
                  key.length / (⌊(key.length : ℚ) * f⌋).toNat) key.length -
                i * (key.length / (⌊(key.length : ℚ) * f⌋).toNat))).foldl
            (fun acc j => acc ^^^ key.getD j 0) 0)).length := by
      simpa using hi
    rw [List.getD_eq_getElem _ _ hlen, List.getElem_map, List.getElem_range]
    have hstep : ((⌊(key.length : ℚ) * f⌋).toNat) *
        (key.length / (⌊(key.length : ℚ) * f⌋).toNat) ≤ key.length :=
      Nat.mul_div_le key.length _
    have hseg : (i + 1) * (key.length / (⌊(key.length : ℚ) * f⌋).toNat) ≤
        key.length :=
      le_trans (Nat.mul_le_mul_right _ hi) hstep
    have hmin : min (i * (key.length / (⌊(key.length : ℚ) * f⌋).toNat) +
        key.length / (⌊(key.length : ℚ) * f⌋).toNat) key.length =
        i * (key.length / (⌊(key.length : ℚ) * f⌋).toNat) +
          key.length / (⌊(key.length : ℚ) * f⌋).toNat := by
      rw [min_eq_left]
      calc i * (key.length / (⌊(key.length : ℚ) * f⌋).toNat) +
            key.length / (⌊(key.length : ℚ) * f⌋).toNat
          = (i + 1) * (key.length / (⌊(key.length : ℚ) * f⌋).toNat) := by ring
        _ ≤ key.length := hseg
    rw [hmin, Nat.add_sub_cancel_left]
    exact foldl_xor_range' key _ _ 0 (by omega)

/-- Witness for C5 (amended) at the concrete key [1,1,0] with compression
factor 2/3: two output bits, the segment of output bit 0 is the first
`step = 1` bits of the key. -/
theorem privacy_amplification_amended_witness :
    (privacy_amplification [1, 1, 0] (2/3)).length =
      (⌊(([1, 1, 0] : List ℕ).length : ℚ) * (2/3)⌋).toNat ∧
    (privacy_amplification [1, 1, 0] (2/3)).getD 0 0 =
      ((([1, 1, 0] : List ℕ).drop
          (0 * (([1, 1, 0] : List ℕ).length /
            (⌊(([1, 1, 0] : List ℕ).length : ℚ) * (2/3)⌋).toNat))).take
        (([1, 1, 0] : List ℕ).length /
          (⌊(([1, 1, 0] : List ℕ).length : ℚ) * (2/3)⌋).toNat)).foldl
        (fun a b => a ^^^ b) 0 :=
  ⟨(privacy_amplification_amended [1, 1, 0] (2/3)).1,
   (privacy_amplification_amended [1, 1, 0] (2/3)).2.2 0 (by
      norm_num [Int.toNat_ofNat])⟩

/-! ### Claim C2 -/

/-- Claim C2: the security gate of `run_protocol` accepts exactly when the
estimated error rate is ≤ the threshold; on rejection the run returns the
abort value `None`, which carries no final key, no partial key and no
weakened key — no key material at all. -/
theorem security_gate_no_key_on_reject (error_threshold : ℚ) (n_bits : ℕ)
    (noise_level ratio : ℚ) (alice_bits alice_bases bob_bases : List ℕ)
    (stream : ℕ → ℚ) (check_indices : List ℕ)
    (sifted : List ℕ × List ℕ)
    (hsift : sift_keys alice_bits alice_bases
        (measure_qubits (prepare_qubits alice_bits alice_bases) bob_bases
          noise_level stream) bob_bases = sifted)
    (hne : sifted.1.length ≠ 0)
    (e : ℚ) (af bf : List ℕ)
    (hest : estimate_error_rate sifted.1 sifted.2
        (some ((⌊(sifted.1.length : ℚ) * ratio⌋).toNat)) check_indices =
        .ok (e, af, bf)) :
    (error_threshold < e →
      run_protocol error_threshold n_bits noise_level ratio alice_bits
        alice_bases bob_bases stream check_indices = .ok none) ∧
    ((∃ r, run_protocol error_threshold n_bits noise_level ratio alice_bits
        alice_bases bob_bases stream check_indices = .ok (some r)) ↔
      e ≤ error_threshold) := by
  rw [run_protocol_gate error_threshold n_bits noise_level ratio alice_bits
    alice_bases bob_bases stream check_indices sifted hsift hne e af bf hest]
  constructor
  · intro h
    rw [if_pos h]
  · constructor
    · rintro ⟨r, hr⟩
      by_contra hgt
      rw [if_pos (not_le.mp hgt)] at hr
      simp at hr
    · intro h
      rw [if_neg (not_lt.mpr h)]
      exact ⟨_, rfl⟩

/-- Witness for C2: two qubits, matching bases, total noise: the estimated
error rate is 1, exceeding the threshold 0.11, and the run returns the
abort value. -/
theorem security_gate_no_key_on_reject_witness :
    (11/100 : ℚ) < 1 ∧
    run_protocol (11/100) 2 1 (1/2) [0, 0] [0, 0] [0, 0] (fun _ => 0) [0] =
      .ok none := by
  refine ⟨by norm_num, ?_⟩
  refine (security_gate_no_key_on_reject (11/100) 2 1 (1/2) [0, 0] [0, 0]
    [0, 0] (fun _ => 0) [0] ([0, 0], [1, 1]) ?_ (by decide) 1 [0] [1]
    ?_).1 (by norm_num)
  · norm_num [sift_keys, measure_qubits, measureQubitsAux, prepare_qubits,
      List.filterMap_cons]
  · norm_num [estimate_error_rate, keep_indices, keep_indices,
      List.countP_cons, Int.toNat_ofNat, List.filter_cons, List.range_succ]

/-! ### Claim C8 -/

/-- Claim C8: every successful run reports `key_length = len(final_key)`
and `discarded_bits = n_bits − key_length` in the assembled `QKDResult`. -/
theorem qkd_result_bookkeeping (error_threshold : ℚ) (n_bits : ℕ)
    (noise_level ratio : ℚ) (alice_bits alice_bases bob_bases : List ℕ)
    (stream : ℕ → ℚ) (check_indices : List ℕ) (r : QKDResult)
    (h : run_protocol error_threshold n_bits noise_level ratio alice_bits
        alice_bases bob_bases stream check_indices = .ok (some r)) :
    r.discarded_bits = (n_bits : ℤ) - (r.key_length : ℤ) ∧
    r.key_length = r.final_key.length := by
  simp only [run_protocol] at h
  split at h
  · simp at h
  · split at h
    · simp at h
    · split at h
      · simp at h
      · simp only [Except.ok.injEq, Option.some.injEq] at h
        subst h
        exact ⟨rfl, rfl⟩

/-- Witness for C8: a successful two-qubit run; the final key is empty
after amplification, so key_length = 0 and discarded_bits = 2. -/
theorem qkd_result_bookkeeping_witness :
    (⟨[0, 1], [0, 1], [], 0, 0, 2⟩ : QKDResult).discarded_bits =
      ((2 : ℕ) : ℤ) - (((⟨[0, 1], [0, 1], [], 0, 0, 2⟩ : QKDResult).key_length : ℕ) : ℤ) ∧
    (⟨[0, 1], [0, 1], [], 0, 0, 2⟩ : QKDResult).key_length =
      (⟨[0, 1], [0, 1], [], 0, 0, 2⟩ : QKDResult).final_key.length := by
  refine qkd_result_bookkeeping (11/100) 2 0 (1/2) [0, 1] [0, 0] [0, 0]
    (fun _ => 1) [0] _ ?_
  rw [run_protocol_gate (11/100) 2 0 (1/2) [0, 1] [0, 0] [0, 0] (fun _ => 1)
    [0] ([0, 1], [0, 1]) ?_ (by decide) 0 [1] [1] ?_]
  · norm_num [privacy_amplification]
  · norm_num [sift_keys, measure_qubits, measureQubitsAux, prepare_qubits,
      List.filterMap_cons]
  · norm_num [estimate_error_rate, keep_indices, List.countP_cons,
      Int.toNat_ofNat, List.filter_cons, List.range_succ]

/-! ### Claim C6 -/

/-- Claim C6 (counterexample): the caller cannot tell a security abort
apart from an empty-sift abort.  The first run aborts because no bases
match (empty sift); the second aborts because its error rate 1 exceeds the
threshold 0.11; both return the very same value `Except.ok none`, with no
error rate attached. -/
theorem aborts_indistinguishable :
    (sift_keys [0] [0]
        (measure_qubits (prepare_qubits [0] [0]) [1] 0 (fun _ => 0)) [1]).1 =
      [] ∧
    run_protocol (11/100) 1 0 (1/2) [0] [0] [1] (fun _ => 0) [] = .ok none ∧
    estimate_error_rate [0, 0] [1, 1] (some 1) [0] = .ok (1, [0], [1]) ∧
    (11/100 : ℚ) < 1 ∧
    run_protocol (11/100) 2 1 (1/2) [0, 0] [0, 0] [0, 0] (fun _ => 0) [0] =
      .ok none ∧
    run_protocol (11/100) 1 0 (1/2) [0] [0] [1] (fun _ => 0) [] =
      run_protocol (11/100) 2 1 (1/2) [0, 0] [0, 0] [0, 0] (fun _ => 0) [0] := by
  have h1 : run_protocol (11/100) 1 0 (1/2) [0] [0] [1] (fun _ => 0) [] =
      .ok none := by
    refine run_protocol_empty_sift (11/100) 1 0 (1/2) [0] [0] [1]
      (fun _ => 0) [] ?_
    norm_num [sift_keys, measure_qubits, measureQubitsAux, prepare_qubits,
      randint01, List.filterMap_cons]
  have h2 : run_protocol (11/100) 2 1 (1/2) [0, 0] [0, 0] [0, 0] (fun _ => 0)
      [0] = .ok none := by
    norm_num [run_protocol, prepare_qubits, measure_qubits, measureQubitsAux,
      sift_keys, estimate_error_rate, keep_indices, List.filterMap_cons,
      List.countP_cons, List.filter_cons, List.range_succ]
  refine ⟨?_, h1, ?_, by norm_num, h2, h1.trans h2.symm⟩
  · norm_num [sift_keys, measure_qubits, measureQubitsAux, prepare_qubits,
      randint01, List.filterMap_cons]
  · norm_num [estimate_error_rate, keep_indices, List.countP_cons,
      List.filter_cons, List.range_succ]

/-- Claim C6 (amended): success is signalled by a present result and is
distinguishable from abort, but both abort outcomes — empty sift and
security rejection — are returned as the same bare `None`, with the error
rate only logged, never attached, so the two abort causes are not
distinguishable from the returned value. -/
theorem abort_outcomes_collapse (error_threshold : ℚ) (n_bits : ℕ)
    (noise_level ratio : ℚ) (alice_bits alice_bases bob_bases : List ℕ)
    (stream : ℕ → ℚ) (check_indices : List ℕ)
    (sifted : List ℕ × List ℕ)
    (hsift : sift_keys alice_bits alice_bases
        (measure_qubits (prepare_qubits alice_bits alice_bases) bob_bases
          noise_level stream) bob_bases = sifted) :
    (sifted.1.length = 0 →
      run_protocol error_threshold n_bits noise_level ratio alice_bits
        alice_bases bob_bases stream check_indices = .ok none) ∧
    (∀ e af bf, sifted.1.length ≠ 0 →
      estimate_error_rate sifted.1 sifted.2
        (some ((⌊(sifted.1.length : ℚ) * ratio⌋).toNat)) check_indices =
        .ok (e, af, bf) →
      error_threshold < e →
      run_protocol error_threshold n_bits noise_level ratio alice_bits
        alice_bases bob_bases stream check_indices = .ok none) ∧
    (∀ e af bf, sifted.1.length ≠ 0 →
      estimate_error_rate sifted.1 sifted.2
        (some ((⌊(sifted.1.length : ℚ) * ratio⌋).toNat)) check_indices =
        .ok (e, af, bf) →
      e ≤ error_threshold →
      ∃ r, run_protocol error_threshold n_bits noise_level ratio alice_bits
        alice_bases bob_bases stream check_indices = .ok (some r)) := by
  refine ⟨?_, ?_, ?_⟩
  · intro h
    exact run_protocol_empty_sift _ _ _ _ _ _ _ _ _ (hsift ▸ h)
  · intro e af bf hne hest hgt
    rw [run_protocol_gate error_threshold n_bits noise_level ratio alice_bits
      alice_bases bob_bases stream check_indices sifted hsift hne e af bf hest]
    rw [if_pos hgt]
  · intro e af bf hne hest hle
    rw [run_protocol_gate error_threshold n_bits noise_level ratio alice_bits
      alice_bases bob_bases stream check_indices sifted hsift hne e af bf hest]
    rw [if_neg (not_lt.mpr hle)]
    exact ⟨_, rfl⟩

/-- Witness for C6 (amended): the empty-sift case and the gate-rejection
case, both at concrete inputs, both yielding the bare abort value. -/
theorem abort_outcomes_collapse_witness :
    run_protocol (11/100) 1 0 (1/2) [0] [0] [1] (fun _ => 0) [] = .ok none ∧
    run_protocol (11/100) 2 1 (1/2) [0, 0] [0, 0] [0, 0] (fun _ => 0) [0] =
      .ok none := by
  constructor
  · refine (abort_outcomes_collapse (11/100) 1 0 (1/2) [0] [0] [1]
      (fun _ => 0) [] ([], []) ?_).1 rfl
    norm_num [sift_keys, measure_qubits, measureQubitsAux, prepare_qubits,
      randint01, List.filterMap_cons]
  · refine (abort_outcomes_collapse (11/100) 2 1 (1/2) [0, 0] [0, 0] [0, 0]
      (fun _ => 0) [0] ([0, 0], [1, 1]) ?_).2.1 1 [0] [1] (by decide) ?_
      (by norm_num)
    · norm_num [sift_keys, measure_qubits, measureQubitsAux, prepare_qubits,
        List.filterMap_cons]
    · norm_num [estimate_error_rate, keep_indices, List.countP_cons,
        Int.toNat_ofNat, List.filter_cons, List.range_succ]

/-! ### Claim C7 -/

lemma map_getD_range (l : List ℕ) :
    (List.range l.length).map (fun i => l.getD i 0) = l := by
  apply List.ext_getElem
  · simp
  · intro i h1 h2
    simp only [List.getElem_map, List.getElem_range]
    exact List.getD_eq_getElem l 0 h2

lemma sift_side (bits bases bases' : List ℕ)
    (h1 : bases.length = bits.length) (h3 : bases'.length = bits.length) :
    (List.zip bits (List.zipWith (fun a b => decide (a = b)) bases bases')).filterMap
        (fun p => if p.2 then some p.1 else none) =
      ((List.range bits.length).filter
          (fun i => decide (bases.getD i 0 = bases'.getD i 0))).map
        (fun i => bits.getD i 0) := by
  induction bits generalizing bases bases' with
  | nil => simp
  | cons x xs ih =>
    cases bases with
    | nil => simp at h1
    | cons p ps =>
      cases bases' with
      | nil => simp at h3
      | cons q qs =>
        have h1' : ps.length = xs.length := by simpa using h1
        have h3' : qs.length = xs.length := by simpa using h3
        by_cases hpq : p = q <;>
          simp [hpq, List.range_succ_eq_map, List.filter_map,
            ih ps qs h1' h3', Function.comp_def, List.map_map]

/-- Claim C7: for equal-length inputs, `sift_keys` returns both parties'
bits at exactly the positions where the two basis strings agree, in
original order (so element i of the two outputs refers to the same
original index), the two outputs have equal length, and a zero-match
input yields empty outputs. -/
theorem sift_keys_spec (alice_bits alice_bases bob_bits bob_bases : List ℕ)
    (h1 : alice_bases.length = alice_bits.length)
    (h2 : bob_bits.length = alice_bits.length)
    (h3 : bob_bases.length = alice_bits.length) :
    (sift_keys alice_bits alice_bases bob_bits bob_bases).1 =
      ((List.range alice_bits.length).filter
          (fun i => decide (alice_bases.getD i 0 = bob_bases.getD i 0))).map
        (fun i => alice_bits.getD i 0) ∧
    (sift_keys alice_bits alice_bases bob_bits bob_bases).2 =
      ((List.range alice_bits.length).filter
          (fun i => decide (alice_bases.getD i 0 = bob_bases.getD i 0))).map
        (fun i => bob_bits.getD i 0) ∧
    (sift_keys alice_bits alice_bases bob_bits bob_bases).1.length =
      (sift_keys alice_bits alice_bases bob_bits bob_bases).2.length ∧
    ((List.range alice_bits.length).filter
        (fun i => decide (alice_bases.getD i 0 = bob_bases.getD i 0)) = [] →
      (sift_keys alice_bits alice_bases bob_bits bob_bases).1 = [] ∧
      (sift_keys alice_bits alice_bases bob_bits bob_bases).2 = []) := by
  have e1 := sift_side alice_bits alice_bases bob_bases h1 h3
  have e2 := sift_side bob_bits alice_bases bob_bases
    (h1.trans h2.symm) (h3.trans h2.symm)
  rw [h2] at e2
  simp only [sift_keys]
  refine ⟨e1, e2, ?_, ?_⟩
  · rw [e1, e2]
    simp
  · intro h
    rw [e1, e2, h]
    simp

/-- Witness for C7 at a concrete input: bases agree only at position 0. -/
theorem sift_keys_spec_witness :
    (sift_keys [1, 0] [0, 1] [1, 1] [0, 0]).1 =
      ((List.range ([1, 0] : List ℕ).length).filter
          (fun i => decide (([0, 1] : List ℕ).getD i 0 =
            ([0, 0] : List ℕ).getD i 0))).map
        (fun i => ([1, 0] : List ℕ).getD i 0) ∧
    (sift_keys [1, 0] [0, 1] [1, 1] [0, 0]).1.length =
      (sift_keys [1, 0] [0, 1] [1, 1] [0, 0]).2.length :=
  ⟨(sift_keys_spec [1, 0] [0, 1] [1, 1] [0, 0]
      (by decide) (by decide) (by decide)).1,
   (sift_keys_spec [1, 0] [0, 1] [1, 1] [0, 0]
      (by decide) (by decide) (by decide)).2.2.1⟩

/-! ### Claim C4 -/

/-- Claim C4: for equal-length keys and a valid sample, `estimate_error_rate`
returns the error rate #(sampled positions where the keys differ)/sample_size
together with the two keys restricted to the complement of the sampled
index set: the sampled and kept index sets are disjoint, together they are
a permutation of all sifted indices (each exactly once), the kept indices
are strictly increasing (original order preserved) and the remaining key
is a subsequence of the original. -/
theorem estimate_error_rate_spec (alice_key bob_key : List ℕ) (s : ℕ)
    (check_indices : List ℕ)
    (hlen : bob_key.length = alice_key.length)
    (hnd : check_indices.Nodup)
    (hb : ∀ i ∈ check_indices, i < alice_key.length)
    (hcard : check_indices.length = s)
    (hpos : 0 < s) (hlt : s < alice_key.length) :
    estimate_error_rate alice_key bob_key (some s) check_indices =
      .ok (((check_indices.countP
            (fun i => decide (¬ alice_key.getD i 0 = bob_key.getD i 0)) : ℕ) : ℚ) /
          (s : ℚ),
        (keep_indices alice_key.length check_indices).map
          (fun i => alice_key.getD i 0),
        (keep_indices alice_key.length check_indices).map
          (fun i => bob_key.getD i 0)) ∧
    List.Disjoint check_indices (keep_indices alice_key.length check_indices) ∧
    (check_indices ++ keep_indices alice_key.length check_indices).Perm
      (List.range alice_key.length) ∧
    List.Pairwise (· < ·) (keep_indices alice_key.length check_indices) ∧
    ((keep_indices alice_key.length check_indices).map
        (fun i => alice_key.getD i 0)).Sublist alice_key := by
  refine ⟨?_, ?_, ?_, ?_, ?_⟩
  · unfold estimate_error_rate
    simp only [Option.getD_some]
    rw [if_neg (Nat.not_le.mpr hlt), if_neg hpos.ne']
  · intro a ha hmem
    simp only [keep_indices, List.mem_filter, decide_eq_true_eq] at hmem
    exact hmem.2 ha
  · have hperm : ((List.range alice_key.length).filter
        (fun i => decide (i ∈ check_indices))).Perm check_indices := by
      rw [List.perm_ext_iff_of_nodup
        ((List.nodup_range _).filter _) hnd]
      intro a
      simp only [List.mem_filter, List.mem_range, decide_eq_true_eq,
        and_iff_right_iff_imp]
      exact hb a
    have hkeep : keep_indices alice_key.length check_indices =
        (List.range alice_key.length).filter
          (fun i => !(decide (i ∈ check_indices))) := by
      simp [keep_indices, decide_not]
    rw [hkeep]
    exact (hperm.symm.append_right _).trans
      (List.filter_append_perm (fun i => decide (i ∈ check_indices)) _)
  · exact (List.pairwise_lt_range _).filter _
  · have hsub : (keep_indices alice_key.length check_indices).map
        (fun i => alice_key.getD i 0) |>.Sublist
          ((List.range alice_key.length).map (fun i => alice_key.getD i 0)) :=
      (List.filter_sublist _).map _
    rw [map_getD_range] at hsub
    exact hsub

/-- Witness for C4 at a concrete input: keys [0,1,0] and [0,0,0], one
sampled index 1 (where the keys differ), kept indices 0 and 2. -/
theorem estimate_error_rate_spec_witness :
    estimate_error_rate [0, 1, 0] [0, 0, 0] (some 1) [1] =
      .ok (((([1] : List ℕ).countP
            (fun i => decide (¬ ([0, 1, 0] : List ℕ).getD i 0 =
              ([0, 0, 0] : List ℕ).getD i 0)) : ℕ) : ℚ) / ((1 : ℕ) : ℚ),
        (keep_indices ([0, 1, 0] : List ℕ).length [1]).map
          (fun i => ([0, 1, 0] : List ℕ).getD i 0),
        (keep_indices ([0, 1, 0] : List ℕ).length [1]).map
          (fun i => ([0, 0, 0] : List ℕ).getD i 0)) ∧
    List.Disjoint [1] (keep_indices ([0, 1, 0] : List ℕ).length [1]) :=
  ⟨(estimate_error_rate_spec [0, 1, 0] [0, 0, 0] 1 [1] (by decide) (by decide)
      (by decide) (by decide) (by decide) (by decide)).1,
   (estimate_error_rate_spec [0, 1, 0] [0, 0, 0] 1 [1] (by decide) (by decide)
      (by decide) (by decide) (by decide) (by decide)).2.1⟩

/-! ### Claim C3 -/

lemma measureQubitsAux_mismatch (noise_level : ℚ) (stream : ℕ → ℚ) :
    ∀ (l : List ((ℕ × ℕ) × ℕ)) (k : ℕ), (∀ x ∈ l, x.1.2 ≠ x.2) →
      measureQubitsAux noise_level stream l k =
        (List.range' k l.length).map (fun i => randint01 (stream i)) := by
  intro l
  induction l with
  | nil => intro k h; simp [measureQubitsAux]
  | cons x rest ih =>
    intro k h
    obtain ⟨⟨ab, abas⟩, bbas⟩ := x
    have hx : abas ≠ bbas := h _ (List.mem_cons_self _ _)
    simp only [measureQubitsAux, List.length_cons, List.range'_succ,
      List.map_cons]
    rw [if_neg hx, ih (k + 1) (fun y hy => h y (List.mem_cons_of_mem _ hy))]

/-- Claim C3: with mismatched bases and zero noise the outcome of
`measure_qubits` does not depend on the encoded bits: two runs on the same
draw stream agree, and each outcome is exactly the derived uniform bit
`randint01` of the stream — which is 0 precisely on the lower half [0,1/2)
of the unit interval, and the two halves have equal measure (probability
1/2 each). -/
theorem mismatched_basis_outcome_independent
    (qs qs' : List (ℕ × ℕ)) (bases : List ℕ) (stream : ℕ → ℚ)
    (hq : qs.length = bases.length) (hq' : qs'.length = bases.length)
    (hmm1 : ∀ x ∈ List.zip qs bases, x.1.2 ≠ x.2)
    (hmm2 : ∀ x ∈ List.zip qs' bases, x.1.2 ≠ x.2) :
    measure_qubits qs bases 0 stream = measure_qubits qs' bases 0 stream ∧
    measure_qubits qs bases 0 stream =
      (List.range bases.length).map (fun i => randint01 (stream i)) ∧
    (∀ u : ℚ, 0 ≤ u → u < 1 → (randint01 u = 0 ↔ u < 1/2)) ∧
    MeasureTheory.volume (Set.Ico (0 : ℝ) (1/2)) =
      MeasureTheory.volume (Set.Ico (1/2 : ℝ) 1) := by
  have hzlen : (List.zip qs bases).length = bases.length := by
    rw [List.length_zip, hq, Nat.min_self]
  have hzlen' : (List.zip qs' bases).length = bases.length := by
    rw [List.length_zip, hq', Nat.min_self]
  have e1 : measure_qubits qs bases 0 stream =
      (List.range bases.length).map (fun i => randint01 (stream i)) := by
    rw [measure_qubits, measureQubitsAux_mismatch 0 stream _ 0 hmm1, hzlen,
      List.range_eq_range']
  have e2 : measure_qubits qs' bases 0 stream =
      (List.range bases.length).map (fun i => randint01 (stream i)) := by
    rw [measure_qubits, measureQubitsAux_mismatch 0 stream _ 0 hmm2, hzlen',
      List.range_eq_range']
  refine ⟨e1.trans e2.symm, e1, ?_, ?_⟩
  · intro u _ _
    unfold randint01
    split_ifs with h
    · simpa [one_div] using h
    · simpa [one_div, not_lt] using h
  · rw [Real.volume_Ico, Real.volume_Ico]
    norm_num

/-- Witness for C3: one qubit each, encoded bits 0 and 1, both prepared in
the rectilinear basis and measured in the diagonal basis. -/
theorem mismatched_basis_outcome_independent_witness :
    measure_qubits [(0, 0)] [1] 0 (fun _ => 0) =
      measure_qubits [(1, 0)] [1] 0 (fun _ => 0) ∧
    measure_qubits [(0, 0)] [1] 0 (fun _ => 0) =
      (List.range ([1] : List ℕ).length).map
        (fun i => randint01 ((fun _ => (0 : ℚ)) i)) :=
  ⟨(mismatched_basis_outcome_independent [(0, 0)] [(1, 0)] [1] (fun _ => 0)
      (by decide) (by decide) (by decide) (by decide)).1,
   (mismatched_basis_outcome_independent [(0, 0)] [(1, 0)] [1] (fun _ => 0)
      (by decide) (by decide) (by decide) (by decide)).2.1⟩

/-! ### Claim C1 -/

/-- Claim C1: with matching preparing and measuring bases and zero noise,
measurement deterministically returns the encoded bit, for every possible
random draw — in the direct-flip path (`measure_qubits`, whose noise flip
`random() < 0` never fires) and in the state-vector path (`measure_qubit`
on `create_qubit_state`, where the Born probability of the wrong outcome
is exactly 0). -/
theorem measure_matching_basis_deterministic
    (bit basis : ℕ) (hbit : bit < 2) (hbasis : basis < 2)
    (stream : ℕ → ℚ) (hstream : ∀ k, 0 ≤ stream k)
    (u : ℝ) (hu0 : 0 ≤ u) (hu1 : u < 1) :
    measure_qubits [(bit, basis)] [basis] 0 stream = [bit] ∧
    measure_qubit (create_qubit_state bit basis) basis 0 u = bit := by
  constructor
  · show measureQubitsAux 0 stream [((bit, basis), basis)] 0 = [bit]
    simp only [measureQubitsAux, eq_self_iff_true, if_true]
    rw [if_neg (not_lt.mpr (hstream 0))]
  · have h2 : Real.sqrt 2 * Real.sqrt 2 = 2 := Real.mul_self_sqrt (by norm_num)
    interval_cases bit <;> interval_cases basis
    · norm_num [measure_qubit, create_qubit_state, get_measurement_operator,
        apply_noise, matVec, vdot, hu1]
    · norm_num [measure_qubit, create_qubit_state, get_measurement_operator,
        apply_noise, matVec, vdot, h2, hu1]
    · norm_num [measure_qubit, create_qubit_state, get_measurement_operator,
        apply_noise, matVec, vdot, not_lt.mpr hu0]
    · norm_num [measure_qubit, create_qubit_state, get_measurement_operator,
        apply_noise, matVec, vdot, h2, not_lt.mpr hu0]

/-- Witness for C1: bit 1 in the diagonal basis, measured in the diagonal
basis, draw 1/2 (and a constant zero stream for the flip path). -/
theorem measure_matching_basis_deterministic_witness :
    measure_qubits [(1, 1)] [1] 0 (fun _ => 0) = [1] ∧
    measure_qubit (create_qubit_state 1 1) 1 0 (1/2) = 1 :=
  measure_matching_basis_deterministic 1 1 (by decide) (by decide)
    (fun _ => 0) (fun _ => le_refl 0) (1/2) (by norm_num) (by norm_num)

end NCrypt
